import Mathlib

/-!
Verification of the maze-generator program (`src/main.rs`).

The program generates a perfect maze on a `COLS × ROWS` grid by randomized
depth-first search and paints the state into an RGBA pixel buffer.  The
definitions below are a shallow embedding of the Rust source:

* `WallOrientation`, `Wall`, `World` mirror the Rust types (`HashSet` becomes
  `Finset`, the `Vec` stack becomes a `List` whose top is the LAST element,
  exactly as in the Rust `Vec` with `last`/`push`/`pop`).
* `World.update` embeds `World::update`.  The call
  `rng.gen_range(0..neighbours.len())` is modelled by an injected natural
  number `i`; the index actually used is `i % neighbours.length`, which ranges
  over exactly the values `gen_range` can produce, and equals `i` whenever
  `i < neighbours.length`.
* `World.colorAt` / `World.draw` embed `World::draw`, which writes one RGBA
  chunk per complete 4-byte chunk of the frame (`chunks_exact_mut(4)`).
-/

def CELL_SIZE : Nat := 20

def COLS : Nat := 30

def ROWS : Nat := 30

def CELL_COLOR : List Nat := [0x99, 0x99, 0xff, 0xff]

def VISITED_COLOR : List Nat := [0xff, 0x99, 0x99, 0xff]

def WALL_COLOR : List Nat := [0xff, 0xff, 0xff, 0xff]

def WIN_WIDTH : Nat := COLS * CELL_SIZE

def WIN_HEIGHT : Nat := ROWS * CELL_SIZE

inductive WallOrientation where
  | Vertical
  | Horizontal
  deriving DecidableEq, Repr

structure Wall where
  orientation : WallOrientation
  x : Nat
  y : Nat
  deriving DecidableEq, Repr

structure World where
  visited : Finset (Nat × Nat)
  stack : List (Nat × Nat)
  removed_walls : Finset Wall

/-- Embedding of `World::new`. -/
def World.new : World :=
  { visited := {(0, 0)}, stack := [(0, 0)], removed_walls := ∅ }

/-- The eligible-neighbour list built by `World::update` for the cell
`(cx, cy)`: in-bounds, not-yet-visited axis neighbours, pushed in source
order Left, Right, Up, Down, each paired with its wall orientation. -/
def neighboursOf (w : World) (cx cy : Nat) : List ((Nat × Nat) × WallOrientation) :=
  (if 0 < cx then
    (if (cx - 1, cy) ∉ w.visited then [((cx - 1, cy), WallOrientation.Vertical)] else [])
  else []) ++
  (if cx + 1 < COLS then
    (if (cx + 1, cy) ∉ w.visited then [((cx + 1, cy), WallOrientation.Vertical)] else [])
  else []) ++
  (if 0 < cy then
    (if (cx, cy - 1) ∉ w.visited then [((cx, cy - 1), WallOrientation.Horizontal)] else [])
  else []) ++
  (if cy + 1 < ROWS then
    (if (cx, cy + 1) ∉ w.visited then [((cx, cy + 1), WallOrientation.Horizontal)] else [])
  else [])

/-- Embedding of `World::update` (the `step()` of the spec).  `i` injects the
random choice: the source draws `next_index` uniformly from
`0..neighbours.len()`, which we model as `i % neighbours.length` (always in
range because the list is non-empty on that branch, so `getD`'s default is
never used). -/
def World.update (w : World) (i : Nat) : World × Bool :=
  match w.stack.getLast? with
  | none => (w, false)
  | some current =>
    let nbs := neighboursOf w current.1 current.2
    if nbs.length = 0 then
      ({ w with stack := w.stack.dropLast }, false)
    else
      let nb := nbs.getD (i % nbs.length) ((0, 0), WallOrientation.Vertical)
      ({ visited := insert nb.1 w.visited,
         stack := w.stack ++ [nb.1],
         removed_walls :=
           insert
             { orientation := nb.2, x := min nb.1.1 current.1, y := min nb.1.2 current.2 }
             w.removed_walls },
       true)

/-- Run `update` along a list of injected random choices. -/
def runList (w : World) (cs : List Nat) : World :=
  cs.foldl (fun v i => (v.update i).1) w

/-- Run `n` steps from the initial state, the `k`-th step using choice `f k`. -/
def runN (f : Nat → Nat) : Nat → World
  | 0 => World.new
  | n + 1 => ((runN f n).update (f n)).1

/-- States reachable from `World::new` by `update` steps. -/
inductive Reachable : World → Prop where
  | new : Reachable World.new
  | step : ∀ {w : World} (i : Nat), Reachable w → Reachable (w.update i).1

/-- A state is about to backtrack: the stack is non-empty and its top cell has
no in-bounds unvisited neighbour. -/
def isBacktrack (w : World) : Bool :=
  match w.stack.getLast? with
  | none => false
  | some current => (neighboursOf w current.1 current.2).isEmpty

/-- Number of backtrack steps performed while running the choice list `cs`. -/
def backtracks : World → List Nat → Nat
  | _, [] => 0
  | w, i :: cs => (if isBacktrack w then 1 else 0) + backtracks (w.update i).1 cs

/-- Model of the Rust `as u32` cast applied to the chunk index in
`World::draw` (`let x = i as u32 % WIN_WIDTH`): truncation modulo `2^32`. -/
def u32 (n : Nat) : Nat := n % 2 ^ 32

/-- The RGBA chunk the body of the `chunks_exact_mut(4).enumerate()` loop in
`World::draw` writes for a chunk index `i` already reduced below `2^32`: the
source computes `x`/`y` from `i as u32`, and `drawAux` below applies that
`u32` truncation before calling this function, so for `i < 2^32` (in
particular for every pixel of the `WIN_WIDTH × WIN_HEIGHT` raster) this is
exactly the source's computation. -/
def World.colorAt (w : World) (i : Nat) : List Nat :=
  let x := i % WIN_WIDTH
  let y := i / WIN_WIDTH
  if 0 < x ∧ x % CELL_SIZE = 0 then
    if { orientation := WallOrientation.Vertical,
         x := x / CELL_SIZE - 1, y := y / CELL_SIZE : Wall } ∉ w.removed_walls then
      WALL_COLOR
    else
      VISITED_COLOR
  else if 0 < y ∧ y % CELL_SIZE = 0 then
    if { orientation := WallOrientation.Horizontal,
         x := x / CELL_SIZE, y := y / CELL_SIZE - 1 : Wall } ∉ w.removed_walls then
      WALL_COLOR
    else
      VISITED_COLOR
  else
    if (x / CELL_SIZE, y / CELL_SIZE) ∈ w.visited then VISITED_COLOR else CELL_COLOR

/-- Helper for `World.draw`: rewrite each complete 4-byte chunk of the frame,
leaving a trailing remainder of fewer than 4 bytes unchanged, as
`chunks_exact_mut(4)` does.  The chunk index is truncated with `u32` exactly
as the source's `i as u32` does before the `%`/`/` decode. -/
def drawAux (w : World) (i : Nat) : List Nat → List Nat
  | _a :: _b :: _c :: _d :: rest => w.colorAt (u32 i) ++ drawAux w (i + 1) rest
  | rest => rest

/-- Embedding of `World::draw` over a byte buffer. -/
def World.draw (w : World) (frame : List Nat) : List Nat :=
  drawAux w 0 frame

/-- Modelled from the spec (§4.3 per-pixel rule), for the refinement claim
about `draw`: the colour the SPEC prescribes for pixel `(x, y)`. -/
def specPixelColor (w : World) (x y : Nat) : List Nat :=
  if 0 < x ∧ x % CELL_SIZE = 0 then
    if { orientation := WallOrientation.Vertical,
         x := x / CELL_SIZE - 1, y := y / CELL_SIZE : Wall } ∈ w.removed_walls then
      VISITED_COLOR
    else
      WALL_COLOR
  else if 0 < y ∧ y % CELL_SIZE = 0 then
    if { orientation := WallOrientation.Horizontal,
         x := x / CELL_SIZE, y := y / CELL_SIZE - 1 : Wall } ∈ w.removed_walls then
      VISITED_COLOR
    else
      WALL_COLOR
  else
    if (x / CELL_SIZE, y / CELL_SIZE) ∈ w.visited then VISITED_COLOR else CELL_COLOR

/-! ### Equation lemmas for `World.update` -/

theorem update_terminal (w : World) (i : Nat) (h : w.stack.getLast? = none) :
    w.update i = (w, false) := by
  simp [World.update, h]

theorem update_of_stack_nil (w : World) (i : Nat) (h : w.stack = []) :
    w.update i = (w, false) :=
  update_terminal w i (by rw [h]; rfl)

theorem update_backtrack (w : World) (i : Nat) (c : Nat × Nat)
    (hl : w.stack.getLast? = some c) (hn : neighboursOf w c.1 c.2 = []) :
    w.update i = ({ w with stack := w.stack.dropLast }, false) := by
  simp [World.update, hl, hn]

theorem update_advance_mod (w : World) (i : Nat) (c : Nat × Nat)
    (hl : w.stack.getLast? = some c) (hn : ¬ neighboursOf w c.1 c.2 = []) :
    w.update i =
      (let nb := (neighboursOf w c.1 c.2).getD (i % (neighboursOf w c.1 c.2).length)
        ((0, 0), WallOrientation.Vertical)
       ({ visited := insert nb.1 w.visited,
          stack := w.stack ++ [nb.1],
          removed_walls :=
            insert { orientation := nb.2, x := min nb.1.1 c.1, y := min nb.1.2 c.2 }
              w.removed_walls },
        true)) := by
  have hlen : ¬ (neighboursOf w c.1 c.2).length = 0 := by
    simpa [List.length_eq_zero] using hn
  simp [World.update, hl, hlen]

theorem update_advance (w : World) (i : Nat) (c : Nat × Nat)
    (hl : w.stack.getLast? = some c) (hi : i < (neighboursOf w c.1 c.2).length) :
    w.update i =
      (let nb := (neighboursOf w c.1 c.2).getD i ((0, 0), WallOrientation.Vertical)
       ({ visited := insert nb.1 w.visited,
          stack := w.stack ++ [nb.1],
          removed_walls :=
            insert { orientation := nb.2, x := min nb.1.1 c.1, y := min nb.1.2 c.2 }
              w.removed_walls },
        true)) := by
  have hn : ¬ neighboursOf w c.1 c.2 = [] := by
    intro h0; rw [h0] at hi; simp at hi
  rw [update_advance_mod w i c hl hn, Nat.mod_eq_of_lt hi]

/-! ### The eligible-neighbour list -/

theorem stack_eq_dropLast_append {w : World} {c : Nat × Nat}
    (hl : w.stack.getLast? = some c) : w.stack = w.stack.dropLast ++ [c] :=
  (List.dropLast_append_getLast? c hl).symm

theorem mem_of_getLast? {l : List (Nat × Nat)} {c : Nat × Nat}
    (hl : l.getLast? = some c) : c ∈ l := by
  have := List.dropLast_append_getLast? c hl
  rw [← this]; simp

/-- All in-bounds axis neighbours of `(cx, cy)` belong to the cell set `v`. -/
def allNbVisited (v : Finset (Nat × Nat)) (cx cy : Nat) : Prop :=
  (0 < cx → (cx - 1, cy) ∈ v) ∧
  (cx + 1 < COLS → (cx + 1, cy) ∈ v) ∧
  (0 < cy → (cx, cy - 1) ∈ v) ∧
  (cy + 1 < ROWS → (cx, cy + 1) ∈ v)

theorem allNbVisited_mono {v v' : Finset (Nat × Nat)} {cx cy : Nat}
    (hs : v ⊆ v') (h : allNbVisited v cx cy) : allNbVisited v' cx cy := by
  obtain ⟨h1, h2, h3, h4⟩ := h
  exact ⟨fun a => hs (h1 a), fun a => hs (h2 a), fun a => hs (h3 a), fun a => hs (h4 a)⟩

theorem neighboursOf_eq_nil_iff (w : World) (cx cy : Nat) :
    neighboursOf w cx cy = [] ↔ allNbVisited w.visited cx cy := by
  by_cases h1 : 0 < cx <;> by_cases h2 : cx + 1 < COLS <;> by_cases h3 : 0 < cy <;>
    by_cases h4 : cy + 1 < ROWS <;>
    simp [neighboursOf, allNbVisited, h1, h2, h3, h4, List.append_eq_nil]

theorem mem_neighboursOf {w : World} {cx cy : Nat} {q : Nat × Nat} {o : WallOrientation}
    (h : (q, o) ∈ neighboursOf w cx cy) :
    q ∉ w.visited ∧
    ((0 < cx ∧ q = (cx - 1, cy) ∧ o = WallOrientation.Vertical) ∨
     (cx + 1 < COLS ∧ q = (cx + 1, cy) ∧ o = WallOrientation.Vertical) ∨
     (0 < cy ∧ q = (cx, cy - 1) ∧ o = WallOrientation.Horizontal) ∨
     (cy + 1 < ROWS ∧ q = (cx, cy + 1) ∧ o = WallOrientation.Horizontal)) := by
  simp only [neighboursOf, List.mem_append] at h
  rcases h with ((h | h) | h) | h <;> split_ifs at h <;> simp_all

/-! ### The reachable-state invariant -/

/-- The two grid cells a wall separates: the anchor and the cell one step
right (Vertical wall) or one step down (Horizontal wall). -/
def wallCells (wl : Wall) : (Nat × Nat) × (Nat × Nat) :=
  match wl.orientation with
  | WallOrientation.Vertical => ((wl.x, wl.y), (wl.x + 1, wl.y))
  | WallOrientation.Horizontal => ((wl.x, wl.y), (wl.x, wl.y + 1))

/-- Invariant maintained by every `update` step: the seed stays visited, the
stack holds visited in-bounds cells, every visited cell off the stack has all
its in-bounds neighbours visited, one wall has been removed per visited cell
but the seed, and removed walls join visited cells. -/
def MazeInv (w : World) : Prop :=
  (0, 0) ∈ w.visited ∧
  (∀ p ∈ w.stack, p ∈ w.visited) ∧
  (∀ p ∈ w.visited, p.1 < COLS ∧ p.2 < ROWS) ∧
  (∀ p ∈ w.visited, p ∉ w.stack → allNbVisited w.visited p.1 p.2) ∧
  w.visited.card = w.removed_walls.card + 1 ∧
  (∀ wl ∈ w.removed_walls, (wallCells wl).1 ∈ w.visited ∧ (wallCells wl).2 ∈ w.visited)

instance (v : Finset (Nat × Nat)) (cx cy : Nat) : Decidable (allNbVisited v cx cy) := by
  unfold allNbVisited; infer_instance

instance (w : World) : Decidable (MazeInv w) := by
  unfold MazeInv; infer_instance

theorem Inv_new : MazeInv World.new := by decide

/-- The wall inserted by an advance step joins exactly the chosen neighbour
`q` and the current cell `c`. -/
theorem wall_of_neighbour {w : World} {c q : Nat × Nat} {o : WallOrientation}
    (hmem : (q, o) ∈ neighboursOf w c.1 c.2) :
    wallCells { orientation := o, x := min q.1 c.1, y := min q.2 c.2 } = (q, c) ∨
    wallCells { orientation := o, x := min q.1 c.1, y := min q.2 c.2 } = (c, q) := by
  obtain ⟨-, hcases⟩ := mem_neighboursOf hmem
  rcases hcases with ⟨h1, rfl, rfl⟩ | ⟨h1, rfl, rfl⟩ | ⟨h1, rfl, rfl⟩ | ⟨h1, rfl, rfl⟩
  · left
    simp only [wallCells]
    have e3 : c.1 - 1 + 1 = c.1 := Nat.succ_pred_eq_of_pos h1
    rw [Nat.min_eq_left (Nat.sub_le c.1 1), Nat.min_self c.2, e3]
  · right
    simp only [wallCells]
    rw [Nat.min_eq_right (Nat.le_succ c.1), Nat.min_self c.2]
  · left
    simp only [wallCells]
    have e3 : c.2 - 1 + 1 = c.2 := Nat.succ_pred_eq_of_pos h1
    rw [Nat.min_self c.1, Nat.min_eq_left (Nat.sub_le c.2 1), e3]
  · right
    simp only [wallCells]
    rw [Nat.min_self c.1, Nat.min_eq_right (Nat.le_succ c.2)]

/-- The wall an advance step inserts was not yet removed: one of its two cells
is the still-unvisited chosen neighbour, while removed walls join visited
cells only. -/
theorem wall_not_removed {w : World} {c q : Nat × Nat} {o : WallOrientation}
    (hwall : ∀ wl ∈ w.removed_walls,
      (wallCells wl).1 ∈ w.visited ∧ (wallCells wl).2 ∈ w.visited)
    (hmem : (q, o) ∈ neighboursOf w c.1 c.2) :
    { orientation := o, x := min q.1 c.1, y := min q.2 c.2 : Wall } ∉ w.removed_walls := by
  intro hin
  have hqv : q ∉ w.visited := (mem_neighboursOf hmem).1
  have := hwall _ hin
  rcases wall_of_neighbour hmem with he | he <;> rw [he] at this
  · exact hqv this.1
  · exact hqv this.2

/-- The orientation paired with a neighbour is Vertical exactly for the
left/right (same-row) neighbours, Horizontal for up/down. -/
theorem orientation_of_neighbour {w : World} {c q : Nat × Nat} {o : WallOrientation}
    (hmem : (q, o) ∈ neighboursOf w c.1 c.2) :
    o = if q.2 = c.2 then WallOrientation.Vertical else WallOrientation.Horizontal := by
  obtain ⟨-, hcases⟩ := mem_neighboursOf hmem
  rcases hcases with ⟨h1, rfl, rfl⟩ | ⟨h1, rfl, rfl⟩ | ⟨h1, rfl, rfl⟩ | ⟨h1, rfl, rfl⟩
  · rw [if_pos rfl]
  · rw [if_pos rfl]
  · rw [if_neg (by simp only []; omega)]
  · rw [if_neg (by simp only []; omega)]

theorem Inv_backtrack (w : World) (c : Nat × Nat) (h : MazeInv w)
    (hl : w.stack.getLast? = some c) (hn : neighboursOf w c.1 c.2 = []) :
    MazeInv { w with stack := w.stack.dropLast } := by
  obtain ⟨h0, hsv, hb, hcl, hcard, hwall⟩ := h
  have hdec : w.stack = w.stack.dropLast ++ [c] := stack_eq_dropLast_append hl
  have hnb : allNbVisited w.visited c.1 c.2 := (neighboursOf_eq_nil_iff w c.1 c.2).mp hn
  refine ⟨h0, ?_, hb, ?_, hcard, hwall⟩
  · intro p hp
    exact hsv p (by rw [hdec]; exact List.mem_append_left _ hp)
  · intro p hp hps
    by_cases hmem : p ∈ w.stack
    · have hpc : p = c := by
        rw [hdec] at hmem
        rcases List.mem_append.mp hmem with h' | h'
        · exact absurd h' hps
        · simpa using h'
      rw [hpc]
      exact hnb
    · exact hcl p hp hmem

theorem Inv_advance (w : World) (c q : Nat × Nat) (o : WallOrientation) (h : MazeInv w)
    (hl : w.stack.getLast? = some c) (hmem : (q, o) ∈ neighboursOf w c.1 c.2) :
    MazeInv ({ visited := insert q w.visited,
               stack := w.stack ++ [q],
               removed_walls :=
                 insert { orientation := o, x := min q.1 c.1, y := min q.2 c.2 }
                   w.removed_walls }) := by
  obtain ⟨h0, hsv, hb, hcl, hcard, hwall⟩ := h
  have hcs : c ∈ w.stack := mem_of_getLast? hl
  have hcv : c ∈ w.visited := hsv c hcs
  have hcb : c.1 < COLS ∧ c.2 < ROWS := hb c hcv
  obtain ⟨hqv, hcases⟩ := mem_neighboursOf hmem
  have hqb : q.1 < COLS ∧ q.2 < ROWS := by
    rcases hcases with ⟨h1, rfl, rfl⟩ | ⟨h1, rfl, rfl⟩ | ⟨h1, rfl, rfl⟩ | ⟨h1, rfl, rfl⟩ <;>
      simp <;> omega
  have hwc := wall_of_neighbour hmem
  have hwnew : { orientation := o, x := min q.1 c.1, y := min q.2 c.2 : Wall } ∉
      w.removed_walls := wall_not_removed hwall hmem
  refine ⟨Finset.mem_insert_of_mem h0, ?_, ?_, ?_, ?_, ?_⟩
  · intro p hp
    rcases List.mem_append.mp hp with h' | h'
    · exact Finset.mem_insert_of_mem (hsv p h')
    · simp only [List.mem_singleton] at h'
      rw [h']
      exact Finset.mem_insert_self q _
  · intro p hp
    rcases Finset.mem_insert.mp hp with rfl | h'
    · exact hqb
    · exact hb p h'
  · intro p hp hps
    have hpq : p ≠ q := by
      intro he
      exact hps (by rw [he]; exact List.mem_append_right _ (List.mem_singleton_self q))
    have hpv : p ∈ w.visited := by
      rcases Finset.mem_insert.mp hp with he | h'
      · exact absurd he hpq
      · exact h'
    have hpstack : p ∉ w.stack := fun h' => hps (List.mem_append_left _ h')
    exact allNbVisited_mono (Finset.subset_insert q _) (hcl p hpv hpstack)
  · rw [Finset.card_insert_of_not_mem hqv, Finset.card_insert_of_not_mem hwnew, hcard]
  · intro wl hwl
    rcases Finset.mem_insert.mp hwl with rfl | h'
    · rcases hwc with he | he <;> rw [he]
      · exact ⟨Finset.mem_insert_self q _, Finset.mem_insert_of_mem hcv⟩
      · exact ⟨Finset.mem_insert_of_mem hcv, Finset.mem_insert_self q _⟩
    · obtain ⟨ha, hb'⟩ := hwall wl h'
      exact ⟨Finset.mem_insert_of_mem ha, Finset.mem_insert_of_mem hb'⟩

theorem Inv_step (w : World) (i : Nat) (h : MazeInv w) : MazeInv (w.update i).1 := by
  cases hl : w.stack.getLast? with
  | none => rw [update_terminal w i hl]; exact h
  | some c =>
    by_cases hn : neighboursOf w c.1 c.2 = []
    · rw [update_backtrack w i c hl hn]
      exact Inv_backtrack w c h hl hn
    · rw [update_advance_mod w i c hl hn]
      have hlen : 0 < (neighboursOf w c.1 c.2).length := List.length_pos.mpr hn
      have hi' : i % (neighboursOf w c.1 c.2).length < (neighboursOf w c.1 c.2).length :=
        Nat.mod_lt _ hlen
      have hget : (neighboursOf w c.1 c.2).getD (i % (neighboursOf w c.1 c.2).length)
          ((0, 0), WallOrientation.Vertical) ∈ neighboursOf w c.1 c.2 := by
        rw [List.getD_eq_getElem _ _ hi']
        exact List.getElem_mem hi'
      exact Inv_advance w c _ _ h hl hget

theorem Inv_reachable {w : World} (h : Reachable w) : MazeInv w := by
  induction h with
  | new => exact Inv_new
  | step i _ ih => exact Inv_step _ i ih

theorem Reachable_runN (f : Nat → Nat) (n : Nat) : Reachable (runN f n) := by
  induction n with
  | zero => exact Reachable.new
  | succ n ih => exact Reachable.step (f n) ih

/-! ### Termination: a potential function that strictly decreases -/

/-- All cells of the `COLS × ROWS` grid. -/
def gridCells : Finset (Nat × Nat) := Finset.range COLS ×ˢ Finset.range ROWS

theorem visited_subset_grid {w : World} (h : MazeInv w) : w.visited ⊆ gridCells := by
  intro p hp
  obtain ⟨-, -, hb, -⟩ := h
  have := hb p hp
  simp only [gridCells, Finset.mem_product, Finset.mem_range]
  exact ⟨this.1, this.2⟩

theorem card_visited_le {w : World} (h : MazeInv w) : w.visited.card ≤ COLS * ROWS := by
  have : w.visited.card ≤ gridCells.card := Finset.card_le_card (visited_subset_grid h)
  simpa [gridCells, Finset.card_product] using this

/-- Potential: twice the number of unvisited cells plus the stack height.
Every `update` on a non-empty stack strictly decreases it. -/
def phi (w : World) : Nat := 2 * (COLS * ROWS - w.visited.card) + w.stack.length

theorem phi_decr (w : World) (i : Nat) (h : MazeInv w) (hne : ¬ w.stack = []) :
    phi (w.update i).1 < phi w := by
  cases hl : w.stack.getLast? with
  | none =>
    exact absurd (by simpa using hl) hne
  | some c =>
    by_cases hn : neighboursOf w c.1 c.2 = []
    · rw [update_backtrack w i c hl hn]
      have hlen : w.stack.length ≠ 0 := by
        simpa [List.length_eq_zero] using hne
      simp only [phi, List.length_dropLast]
      omega
    · have hinv' := Inv_step w i h
      rw [update_advance_mod w i c hl hn] at hinv' ⊢
      set nb := (neighboursOf w c.1 c.2).getD (i % (neighboursOf w c.1 c.2).length)
        ((0, 0), WallOrientation.Vertical) with hnb
      have hlen : 0 < (neighboursOf w c.1 c.2).length := List.length_pos.mpr hn
      have hmem : nb ∈ neighboursOf w c.1 c.2 := by
        rw [hnb, List.getD_eq_getElem _ _ (Nat.mod_lt _ hlen)]
        exact List.getElem_mem _
      have hqv : nb.1 ∉ w.visited := (mem_neighboursOf (q := nb.1) (o := nb.2)
        (by simpa using hmem)).1
      have hcard' : (insert nb.1 w.visited).card = w.visited.card + 1 :=
        Finset.card_insert_of_not_mem hqv
      have hle : (insert nb.1 w.visited).card ≤ COLS * ROWS := card_visited_le hinv'
      simp only [phi, List.length_append, List.length_singleton, hcard']
      rw [hcard'] at hle
      omega

theorem phi_bound_or_empty (f : Nat → Nat) (n : Nat) :
    (runN f n).stack = [] ∨ phi (runN f n) + n ≤ phi World.new := by
  induction n with
  | zero => exact Or.inr (by rw [Nat.add_zero]; exact Nat.le_refl _)
  | succ n ih =>
    by_cases hemp : (runN f n).stack = []
    · left
      show ((runN f n).update (f n)).1.stack = []
      rw [update_of_stack_nil _ _ hemp]
      exact hemp
    · rcases ih with he | hle
      · exact absurd he hemp
      · right
        have hlt : phi ((runN f n).update (f n)).1 < phi (runN f n) :=
          phi_decr _ _ (Inv_reachable (Reachable_runN f n)) hemp
        have : phi (runN f (n + 1)) < phi (runN f n) := hlt
        omega

theorem phi_new : phi World.new = 2 * (COLS * ROWS - 1) + 1 := by decide

theorem terminal_after (f : Nat → Nat) (n : Nat) (hn : phi World.new ≤ n) :
    (runN f n).stack = [] := by
  rcases phi_bound_or_empty f n with h | h
  · exact h
  · have h0 : phi (runN f n) = 0 := by omega
    have hlen : (runN f n).stack.length = 0 := by
      unfold phi at h0
      omega
    exact List.length_eq_zero.mp hlen

/-! ### Coverage of the whole grid at termination -/

theorem coverage_of_terminal (w : World) (h : MazeInv w) (hs : w.stack = []) :
    ∀ x y, x < COLS → y < ROWS → (x, y) ∈ w.visited := by
  obtain ⟨h0, -, -, hcl, -, -⟩ := h
  have hall : ∀ p ∈ w.visited, allNbVisited w.visited p.1 p.2 := by
    intro p hp
    exact hcl p hp (by rw [hs]; simp)
  have hrow : ∀ x, x < COLS → (x, 0) ∈ w.visited := by
    intro x
    induction x with
    | zero => exact fun _ => h0
    | succ k ih =>
      intro hk
      have hmem := ih (by omega)
      exact (hall (k, 0) hmem).2.1 hk
  intro x y hx
  induction y with
  | zero => exact fun _ => hrow x hx
  | succ k ih =>
    intro hk
    have hmem := ih (by omega)
    exact (hall (x, k) hmem).2.2.2 hk

theorem visited_eq_grid (w : World) (h : MazeInv w) (hs : w.stack = []) :
    w.visited = gridCells := by
  apply Finset.Subset.antisymm (visited_subset_grid h)
  intro p hp
  simp only [gridCells, Finset.mem_product, Finset.mem_range] at hp
  have := coverage_of_terminal w h hs p.1 p.2 hp.1 hp.2
  simpa using this

theorem card_visited_of_terminal (w : World) (h : MazeInv w) (hs : w.stack = []) :
    w.visited.card = COLS * ROWS := by
  rw [visited_eq_grid w h hs]
  simp [gridCells, Finset.card_product]

/-! ### Renderer lemmas -/

theorem colorAt_length (w : World) (i : Nat) : (w.colorAt i).length = 4 := by
  simp only [World.colorAt]
  split_ifs <;> rfl

theorem colorAt_cases (w : World) (i : Nat) :
    w.colorAt i = CELL_COLOR ∨ w.colorAt i = VISITED_COLOR ∨ w.colorAt i = WALL_COLOR := by
  simp only [World.colorAt]
  split_ifs <;> simp

theorem drawAux_cons4 (w : World) (i a b c d : Nat) (rest : List Nat) :
    drawAux w i (a :: b :: c :: d :: rest) = w.colorAt (u32 i) ++ drawAux w (i + 1) rest := rfl

theorem drawAux_short (w : World) (i : Nat) (frame : List Nat) (h : frame.length < 4) :
    drawAux w i frame = frame := by
  rcases frame with _ | ⟨a, _ | ⟨b, _ | ⟨c, _ | ⟨d, rest⟩⟩⟩⟩
  · rfl
  · rfl
  · rfl
  · rfl
  · exfalso
    simp only [List.length_cons] at h
    omega

theorem drawAux_length (w : World) :
    ∀ (n : Nat) (frame : List Nat) (i : Nat), frame.length ≤ n →
      (drawAux w i frame).length = frame.length := by
  intro n
  induction n with
  | zero =>
    intro frame i h
    have : frame = [] := List.length_eq_zero.mp (Nat.le_zero.mp h)
    rw [this]
    rfl
  | succ n ih =>
    intro frame i h
    rcases frame with _ | ⟨a, _ | ⟨b, _ | ⟨c, _ | ⟨d, rest⟩⟩⟩⟩
    · rfl
    · rfl
    · rfl
    · rfl
    · rw [drawAux_cons4, List.length_append, colorAt_length,
        ih rest (i + 1) (by simp only [List.length_cons] at h; omega)]
      simp only [List.length_cons]
      omega

theorem drawAux_chunk (w : World) :
    ∀ (n : Nat) (frame : List Nat) (i k : Nat), frame.length ≤ n →
      4 * (k + 1) ≤ frame.length →
      ((drawAux w i frame).drop (4 * k)).take 4 = w.colorAt (u32 (i + k)) := by
  intro n
  induction n with
  | zero =>
    intro frame i k h hk
    omega
  | succ n ih =>
    intro frame i k h hk
    rcases frame with _ | ⟨a, _ | ⟨b, _ | ⟨c, _ | ⟨d, rest⟩⟩⟩⟩
    · simp at hk
    · simp at hk; omega
    · simp at hk; omega
    · simp at hk; omega
    · rw [drawAux_cons4]
      cases k with
      | zero =>
        rw [Nat.mul_zero, List.drop_zero,
          show (4 : Nat) = (w.colorAt (u32 i)).length from (colorAt_length w (u32 i)).symm,
          List.take_left]
        congr 1
      | succ k' =>
        rw [List.drop_append_eq_append_drop,
          List.drop_eq_nil_of_le (by rw [colorAt_length]; omega), List.nil_append,
          colorAt_length, show 4 * (k' + 1) - 4 = 4 * k' by omega]
        have h' : rest.length ≤ n := by simp only [List.length_cons] at h; omega
        have hk' : 4 * (k' + 1) ≤ rest.length := by simp only [List.length_cons] at hk; omega
        rw [ih rest (i + 1) k' h' hk']
        have e : i + 1 + k' = i + (k' + 1) := by omega
        rw [e]

theorem drawAux_remainder (w : World) :
    ∀ (n : Nat) (frame : List Nat) (i : Nat), frame.length ≤ n →
      (drawAux w i frame).drop (4 * (frame.length / 4)) =
        frame.drop (4 * (frame.length / 4)) := by
  intro n
  induction n with
  | zero =>
    intro frame i h
    have : frame = [] := List.length_eq_zero.mp (Nat.le_zero.mp h)
    rw [this]
    rfl
  | succ n ih =>
    intro frame i h
    by_cases h4 : frame.length < 4
    · rw [drawAux_short w i frame h4]
    · rcases frame with _ | ⟨a, _ | ⟨b, _ | ⟨c, _ | ⟨d, rest⟩⟩⟩⟩
      · exact absurd (by simp) h4
      · exact absurd (by simp) h4
      · exact absurd (by simp) h4
      · exact absurd (by simp) h4
      · have h' : rest.length ≤ n := by simp only [List.length_cons] at h; omega
        have hlen : (a :: b :: c :: d :: rest).length = rest.length + 4 := by
          simp only [List.length_cons]
        have hidx : 4 * ((a :: b :: c :: d :: rest).length / 4) =
            4 + 4 * (rest.length / 4) := by
          rw [hlen, Nat.add_div_right rest.length (by omega)]
          omega
        rw [hidx, drawAux_cons4, ← List.drop_drop, ← List.drop_drop,
          show (w.colorAt (u32 i) ++ drawAux w (i + 1) rest).drop 4 = drawAux w (i + 1) rest by
            rw [show (4 : Nat) = (w.colorAt (u32 i)).length from (colorAt_length w (u32 i)).symm,
              List.drop_left],
          show (a :: b :: c :: d :: rest).drop 4 = rest from rfl]
        exact ih rest (i + 1) h'

theorem draw_length (w : World) (frame : List Nat) :
    (w.draw frame).length = frame.length :=
  drawAux_length w frame.length frame 0 (Nat.le_refl _)

theorem draw_chunk (w : World) (frame : List Nat) (k : Nat)
    (hk : 4 * (k + 1) ≤ frame.length) :
    ((w.draw frame).drop (4 * k)).take 4 = w.colorAt (u32 k) := by
  have := drawAux_chunk w frame.length frame 0 k (Nat.le_refl _) hk
  rwa [Nat.zero_add] at this

theorem draw_remainder (w : World) (frame : List Nat) :
    (w.draw frame).drop (4 * (frame.length / 4)) = frame.drop (4 * (frame.length / 4)) :=
  drawAux_remainder w frame.length frame 0 (Nat.le_refl _)

theorem colorAt_eq_spec (w : World) (x y : Nat) (hx : x < WIN_WIDTH) :
    w.colorAt (y * WIN_WIDTH + x) = specPixelColor w x y := by
  have hmod : (y * WIN_WIDTH + x) % WIN_WIDTH = x := by
    rw [Nat.mul_comm y WIN_WIDTH, Nat.mul_add_mod, Nat.mod_eq_of_lt hx]
  have hdiv : (y * WIN_WIDTH + x) / WIN_WIDTH = y := by
    rw [Nat.mul_comm y WIN_WIDTH, Nat.mul_add_div (by decide), Nat.div_eq_of_lt hx,
      Nat.add_zero]
  simp only [World.colorAt, specPixelColor, hmod, hdiv]
  split_ifs <;> rfl

/-! ### Monotonicity -/

theorem update_mono (w : World) (i : Nat) :
    w.visited ⊆ (w.update i).1.visited ∧
    w.removed_walls ⊆ (w.update i).1.removed_walls := by
  cases hl : w.stack.getLast? with
  | none =>
    rw [update_terminal w i hl]
    exact ⟨Finset.Subset.refl _, Finset.Subset.refl _⟩
  | some c =>
    by_cases hn : neighboursOf w c.1 c.2 = []
    · rw [update_backtrack w i c hl hn]
      exact ⟨Finset.Subset.refl _, Finset.Subset.refl _⟩
    · rw [update_advance_mod w i c hl hn]
      exact ⟨Finset.subset_insert _ _, Finset.subset_insert _ _⟩

theorem runList_mono (cs : List Nat) :
    ∀ w : World, w.visited ⊆ (runList w cs).visited ∧
      w.removed_walls ⊆ (runList w cs).removed_walls := by
  induction cs with
  | nil =>
    intro w
    exact ⟨Finset.Subset.refl _, Finset.Subset.refl _⟩
  | cons i cs ih =>
    intro w
    have h1 := update_mono w i
    have h2 := ih (w.update i).1
    exact ⟨h1.1.trans h2.1, h1.2.trans h2.2⟩

attribute [irreducible] runN

/-! ## The claims -/

/-- C1: in a state whose frontier stack has top `c` and at least one
in-bounds not-yet-visited axis neighbour, `step()` with the random choice
modelled as an injected index `i` below the eligible count (eligible
neighbours enumerated Left, Right, Up, Down) marks the selected neighbour
visited (it was not visited before), pushes it onto the frontier stack,
inserts exactly the wall whose orientation is Vertical for a left/right
neighbour and Horizontal for an up/down one and whose anchor is the
coordinate-wise minimum of the selected neighbour and `c`, and returns
`true`. -/
theorem maze_C1 (w : World) (c : Nat × Nat) (i : Nat)
    (hl : w.stack.getLast? = some c) (hi : i < (neighboursOf w c.1 c.2).length) :
    ((neighboursOf w c.1 c.2).get ⟨i, hi⟩).1 ∉ w.visited ∧
    (w.update i).1.visited = insert ((neighboursOf w c.1 c.2).get ⟨i, hi⟩).1 w.visited ∧
    (w.update i).1.stack = w.stack ++ [((neighboursOf w c.1 c.2).get ⟨i, hi⟩).1] ∧
    (w.update i).1.removed_walls =
      insert
        { orientation :=
            if ((neighboursOf w c.1 c.2).get ⟨i, hi⟩).1.2 = c.2 then WallOrientation.Vertical
            else WallOrientation.Horizontal,
          x := min ((neighboursOf w c.1 c.2).get ⟨i, hi⟩).1.1 c.1,
          y := min ((neighboursOf w c.1 c.2).get ⟨i, hi⟩).1.2 c.2 }
        w.removed_walls ∧
    (w.update i).2 = true := by
  have hmem0 : (neighboursOf w c.1 c.2).get ⟨i, hi⟩ ∈ neighboursOf w c.1 c.2 :=
    List.get_mem _ _ _
  have hmem : (((neighboursOf w c.1 c.2).get ⟨i, hi⟩).1,
      ((neighboursOf w c.1 c.2).get ⟨i, hi⟩).2) ∈ neighboursOf w c.1 c.2 := by
    simp only [Prod.mk.eta]
    exact hmem0
  have hgd : (neighboursOf w c.1 c.2).getD i ((0, 0), WallOrientation.Vertical) =
      (neighboursOf w c.1 c.2).get ⟨i, hi⟩ := by
    rw [List.getD_eq_getElem _ _ hi, List.get_eq_getElem]
  have horr := orientation_of_neighbour hmem
  refine ⟨(mem_neighboursOf hmem).1, ?_, ?_, ?_, ?_⟩
  · rw [update_advance w i c hl hi]
    simp only [hgd]
  · rw [update_advance w i c hl hi]
    simp only [hgd]
  · rw [update_advance w i c hl hi]
    simp only [hgd, ← horr]
  · rw [update_advance w i c hl hi]

/-- Witness for C1 at the initial state, choice index 0: the selected
neighbour is `(1, 0)` and the removed wall is the vertical wall at `(0, 0)`. -/
theorem maze_C1_witness :
    ((1 : Nat), (0 : Nat)) ∉ World.new.visited ∧
    (World.new.update 0).1.visited = insert ((1 : Nat), (0 : Nat)) World.new.visited ∧
    (World.new.update 0).1.stack = World.new.stack ++ [((1 : Nat), (0 : Nat))] ∧
    (World.new.update 0).1.removed_walls =
      insert { orientation := WallOrientation.Vertical, x := 0, y := 0 : Wall }
        World.new.removed_walls ∧
    (World.new.update 0).2 = true :=
  maze_C1 World.new (0, 0) 0 rfl (by decide)

/-- C2: for every state and pixel `(x, y)` in range, `draw` writes into the
frame exactly the RGBA chunk prescribed by the spec's per-pixel rule
(`specPixelColor`). -/
theorem maze_C2 (w : World) (x y : Nat) (hx : x < WIN_WIDTH) (hy : y < WIN_HEIGHT)
    (frame : List Nat) (hf : frame.length = WIN_WIDTH * WIN_HEIGHT * 4) :
    ((w.draw frame).drop (4 * (y * WIN_WIDTH + x))).take 4 = specPixelColor w x y := by
  have hx6 : x < 600 := hx
  have hy6 : y < 600 := hy
  have hk : 4 * ((y * WIN_WIDTH + x) + 1) ≤ frame.length := by
    rw [hf, show WIN_WIDTH = 600 from rfl, show WIN_HEIGHT = 600 from rfl]
    omega
  have hu : u32 (y * WIN_WIDTH + x) = y * WIN_WIDTH + x := by
    apply Nat.mod_eq_of_lt
    rw [show WIN_WIDTH = 600 from rfl]
    omega
  rw [← colorAt_eq_spec w x y hx]
  nth_rewrite 2 [← hu]
  exact draw_chunk w frame _ hk

/-- Witness for C2: pixel `(0, 0)` of the initial state on an all-zero frame
of the exact raster size. -/
theorem maze_C2_witness :
    ((World.new.draw (List.replicate (WIN_WIDTH * WIN_HEIGHT * 4) 0)).drop
      (4 * (0 * WIN_WIDTH + 0))).take 4 = specPixelColor World.new 0 0 :=
  maze_C2 World.new 0 0 (by decide) (by decide) _ (by rw [List.length_replicate])

/-- C3: in every reachable state whose frontier stack is empty, every cell of
the `COLS × ROWS` grid is visited. -/
theorem maze_C3 (w : World) (hr : Reachable w) (hs : w.stack = []) (x y : Nat)
    (hx : x < COLS) (hy : y < ROWS) : (x, y) ∈ w.visited :=
  coverage_of_terminal w (Inv_reachable hr) hs x y hx hy

/-- Witness for C3: after `2·COLS·ROWS` steps with the all-zero choice
sequence the stack is empty and, e.g., the seed cell is visited. -/
theorem maze_C3_witness : ((0 : Nat), (0 : Nat)) ∈ (runN (fun _ => 0) (2 * (COLS * ROWS))).visited :=
  maze_C3 (runN (fun _ => 0) (2 * (COLS * ROWS)))
    (Reachable_runN (fun _ => 0) (2 * (COLS * ROWS)))
    (terminal_after (fun _ => 0) (2 * (COLS * ROWS)) (by decide)) 0 0
    (by decide) (by decide)

/-- C4: in every reachable state with an empty frontier stack, the number of
removed walls is the number of visited cells minus one, which is
`COLS·ROWS − 1` (and the visited count is `COLS·ROWS`). -/
theorem maze_C4 (w : World) (hr : Reachable w) (hs : w.stack = []) :
    w.removed_walls.card = w.visited.card - 1 ∧
    w.visited.card = COLS * ROWS ∧
    w.removed_walls.card = COLS * ROWS - 1 := by
  have hinv := Inv_reachable hr
  have hcv := card_visited_of_terminal w hinv hs
  obtain ⟨-, -, -, -, hcard, -⟩ := hinv
  exact ⟨by omega, hcv, by omega⟩

/-- Witness for C4: the terminal state reached by the all-zero choice
sequence. -/
theorem maze_C4_witness :
    (runN (fun _ => 0) (2 * (COLS * ROWS))).removed_walls.card =
      (runN (fun _ => 0) (2 * (COLS * ROWS))).visited.card - 1 ∧
    (runN (fun _ => 0) (2 * (COLS * ROWS))).visited.card = COLS * ROWS ∧
    (runN (fun _ => 0) (2 * (COLS * ROWS))).removed_walls.card = COLS * ROWS - 1 :=
  maze_C4 _ (Reachable_runN _ _) (terminal_after (fun _ => 0) _ (by decide))

/-- C5: from the initial state, for every sequence of injected random
choices, after `2·COLS·ROWS` calls of `step()` the frontier stack is empty;
and any `step()` on an empty stack returns `false` and changes nothing. -/
theorem maze_C5 (f : Nat → Nat) :
    (runN f (2 * (COLS * ROWS))).stack = [] ∧
    ∀ (w : World) (i : Nat), w.stack = [] → w.update i = (w, false) :=
  ⟨terminal_after f _ (by decide), fun w i h => update_of_stack_nil w i h⟩

/-- Witness for C5: a concrete empty-stack state on which `update` is the
identity returning `false`. -/
theorem maze_C5_witness :
    (World.mk ∅ [] ∅).update 0 = (World.mk ∅ [] ∅, false) :=
  (maze_C5 (fun _ => 0)).2 (World.mk ∅ [] ∅) 0 rfl

/-- C6 as stated is false (see `maze_C6_counterexample`).  Amended: a pixel
with `x = 0` is never painted by the vertical-wall rule and a pixel with
`y = 0` is never painted by the horizontal-wall rule; when additionally the
other coordinate does not lie on a grid line (positive multiple of
`CELL_SIZE`), the pixel is painted as cell interior — `VISITED_COLOR` if the
containing cell is visited, else `CELL_COLOR` — and never `WALL_COLOR`. -/
theorem maze_C6 (w : World) (x y : Nat) (hx : x < WIN_WIDTH) :
    (x = 0 → ¬(0 < y ∧ y % CELL_SIZE = 0) →
      w.colorAt (y * WIN_WIDTH + x) =
        (if (x / CELL_SIZE, y / CELL_SIZE) ∈ w.visited then VISITED_COLOR else CELL_COLOR) ∧
      w.colorAt (y * WIN_WIDTH + x) ≠ WALL_COLOR) ∧
    (y = 0 → ¬(0 < x ∧ x % CELL_SIZE = 0) →
      w.colorAt (y * WIN_WIDTH + x) =
        (if (x / CELL_SIZE, y / CELL_SIZE) ∈ w.visited then VISITED_COLOR else CELL_COLOR) ∧
      w.colorAt (y * WIN_WIDTH + x) ≠ WALL_COLOR) := by
  constructor
  · rintro rfl hy2
    rw [colorAt_eq_spec w 0 y hx]
    unfold specPixelColor
    rw [if_neg (by simp), if_neg hy2]
    exact ⟨rfl, by split_ifs <;> decide⟩
  · rintro rfl hx2
    rw [colorAt_eq_spec w x 0 hx]
    unfold specPixelColor
    rw [if_neg hx2, if_neg (by simp)]
    exact ⟨rfl, by split_ifs <;> decide⟩

/-- Counterexample to C6 as stated: in the initial state the pixel
`(0, CELL_SIZE)` has `x = 0` yet lies on a horizontal grid line and is
painted `WALL_COLOR`, not an interior cell colour. -/
theorem maze_C6_counterexample :
    World.new.colorAt (CELL_SIZE * WIN_WIDTH + 0) = WALL_COLOR ∧
    WALL_COLOR ≠ VISITED_COLOR ∧ WALL_COLOR ≠ CELL_COLOR := by decide

/-- Witness for the amended C6 at the initial state, pixel `(0, 0)`. -/
theorem maze_C6_witness :
    World.new.colorAt (0 * WIN_WIDTH + 0) =
      (if ((0 : Nat) / CELL_SIZE, (0 : Nat) / CELL_SIZE) ∈ World.new.visited then VISITED_COLOR
       else CELL_COLOR) ∧
    World.new.colorAt (0 * WIN_WIDTH + 0) ≠ WALL_COLOR :=
  (maze_C6 World.new 0 0 (by decide)).1 rfl (by decide)

/-- C7 as stated is false (see `maze_C7_counterexample`).  Amended: in every
reachable state `|removed_walls| = |visited| − 1`; exactly one wall is
removed on each advancing step (those returning `true`) and none on a
backtrack. -/
theorem maze_C7 (w : World) (hr : Reachable w) :
    w.removed_walls.card = w.visited.card - 1 ∧
    (∀ i : Nat, isBacktrack w = true → (w.update i).1.removed_walls = w.removed_walls) ∧
    (∀ i : Nat, (w.update i).2 = true →
      (w.update i).1.removed_walls.card = w.removed_walls.card + 1) := by
  have hinv := Inv_reachable hr
  obtain ⟨-, -, -, -, hcard, hwall⟩ := hinv
  refine ⟨by omega, ?_, ?_⟩
  · intro i hb
    unfold isBacktrack at hb
    cases hl : w.stack.getLast? with
    | none => rw [hl] at hb; simp at hb
    | some c =>
      rw [hl] at hb
      have hn : neighboursOf w c.1 c.2 = [] := by
        simpa [List.isEmpty_iff] using hb
      rw [update_backtrack w i c hl hn]
  · intro i htrue
    cases hl : w.stack.getLast? with
    | none =>
      rw [update_terminal w i hl] at htrue
      simp at htrue
    | some c =>
      by_cases hn : neighboursOf w c.1 c.2 = []
      · rw [update_backtrack w i c hl hn] at htrue
        simp at htrue
      · rw [update_advance_mod w i c hl hn]
        have hlen : 0 < (neighboursOf w c.1 c.2).length := List.length_pos.mpr hn
        have hmem : ((neighboursOf w c.1 c.2).getD (i % (neighboursOf w c.1 c.2).length)
            ((0, 0), WallOrientation.Vertical)) ∈ neighboursOf w c.1 c.2 := by
          rw [List.getD_eq_getElem _ _ (Nat.mod_lt _ hlen)]
          exact List.getElem_mem _
        have hmem' : (((neighboursOf w c.1 c.2).getD (i % (neighboursOf w c.1 c.2).length)
              ((0, 0), WallOrientation.Vertical)).1,
            ((neighboursOf w c.1 c.2).getD (i % (neighboursOf w c.1 c.2).length)
              ((0, 0), WallOrientation.Vertical)).2) ∈ neighboursOf w c.1 c.2 := by
          simpa using hmem
        exact Finset.card_insert_of_not_mem (wall_not_removed hwall hmem')

/-- Counterexample to C7 as stated: the initial state is reachable with zero
backtrack steps performed, yet `|removed_walls| = 0 ≠ 1 − 0 = |visited| −
(number of backtracks)`. -/
theorem maze_C7_counterexample :
    ¬ (runList World.new []).removed_walls.card =
        (runList World.new []).visited.card - backtracks World.new [] := by decide

/-- Witness for the amended C7 at the initial state. -/
theorem maze_C7_witness :
    World.new.removed_walls.card = World.new.visited.card - 1 :=
  (maze_C7 World.new Reachable.new).1

/-- C8: when the frontier stack is non-empty and its top cell has no
in-bounds unvisited neighbour, `step()` removes exactly the top element from
the stack, leaves `visited` and `removed_walls` unchanged, and returns
`false`. -/
theorem maze_C8 (w : World) (c : Nat × Nat) (i : Nat)
    (hl : w.stack.getLast? = some c) (hn : neighboursOf w c.1 c.2 = []) :
    (w.update i).1.stack = w.stack.dropLast ∧
    w.stack = w.stack.dropLast ++ [c] ∧
    (w.update i).1.visited = w.visited ∧
    (w.update i).1.removed_walls = w.removed_walls ∧
    (w.update i).2 = false := by
  rw [update_backtrack w i c hl hn]
  exact ⟨rfl, stack_eq_dropLast_append hl, rfl, rfl, rfl⟩

/-- A dead-end state: the top cell `(0, 0)` has both of its in-bounds
neighbours already visited. -/
def deadEndWorld : World :=
  { visited := {(0, 0), (1, 0), (0, 1)}, stack := [(0, 0)], removed_walls := ∅ }

/-- Witness for C8 at `deadEndWorld`. -/
theorem maze_C8_witness :
    (deadEndWorld.update 0).1.stack = deadEndWorld.stack.dropLast ∧
    deadEndWorld.stack = deadEndWorld.stack.dropLast ++ [((0 : Nat), (0 : Nat))] ∧
    (deadEndWorld.update 0).1.visited = deadEndWorld.visited ∧
    (deadEndWorld.update 0).1.removed_walls = deadEndWorld.removed_walls ∧
    (deadEndWorld.update 0).2 = false :=
  maze_C8 deadEndWorld (0, 0) 0 (by decide) (by decide)

/-- C9: one `step()` never shrinks `visited` or `removed_walls`, and neither
does any sequence of steps. -/
theorem maze_C9 (w : World) (i : Nat) (cs : List Nat) :
    (w.visited ⊆ (w.update i).1.visited ∧
     w.removed_walls ⊆ (w.update i).1.removed_walls) ∧
    (w.visited ⊆ (runList w cs).visited ∧
     w.removed_walls ⊆ (runList w cs).removed_walls) :=
  ⟨update_mono w i, runList_mono cs w⟩

/-- C10 as stated is false (see `maze_C10_counterexample`): the source
truncates the chunk index with `i as u32` before decoding it, so chunks at
index `2^32` and beyond wrap around to low pixels, whose cells can be in
`visited`; they are not always `CELL_COLOR` off the grid lines.  Amended:
`draw` is total on byte buffers of any length: it preserves the length,
rewrites only complete 4-byte chunks — the `k`-th chunk becomes the colour of
the `u32`-truncated index `k`, always one of the three defined colours, also
for out-of-grid chunk indices — and leaves a trailing remainder of fewer than
4 bytes unchanged. -/
theorem maze_C10 (w : World) (frame : List Nat) (k : Nat)
    (hk : 4 * (k + 1) ≤ frame.length) :
    (w.draw frame).length = frame.length ∧
    (w.draw frame).drop (4 * (frame.length / 4)) = frame.drop (4 * (frame.length / 4)) ∧
    ((w.draw frame).drop (4 * k)).take 4 = w.colorAt (u32 k) ∧
    (w.colorAt (u32 k) = CELL_COLOR ∨ w.colorAt (u32 k) = VISITED_COLOR ∨
      w.colorAt (u32 k) = WALL_COLOR) :=
  ⟨draw_length w frame, draw_remainder w frame, draw_chunk w frame k hk,
    colorAt_cases w (u32 k)⟩

/-- Counterexample to C10 as stated: the chunk index `2^32` lies at or beyond
`WIN_WIDTH·WIN_HEIGHT`, its `i as u32` truncation wraps it to pixel `(0, 0)`
(not a grid-line branch, since both guards require a positive coordinate),
and in the initial state the loop body paints it `VISITED_COLOR`, not the
`CELL_COLOR` the claim's out-of-grid rule prescribes.  The final conjunct
runs the embedded loop on one chunk at exactly that index. -/
theorem maze_C10_counterexample :
    WIN_WIDTH * WIN_HEIGHT ≤ 2 ^ 32 ∧
    u32 (2 ^ 32) % WIN_WIDTH = 0 ∧
    u32 (2 ^ 32) / WIN_WIDTH = 0 ∧
    World.new.colorAt (u32 (2 ^ 32)) = VISITED_COLOR ∧
    VISITED_COLOR ≠ CELL_COLOR ∧
    drawAux World.new (2 ^ 32) [0, 0, 0, 0] = VISITED_COLOR := by decide

/-- Witness for the amended C10: a 5-byte buffer (one complete chunk plus a
1-byte remainder). -/
theorem maze_C10_witness :
    (World.new.draw [0, 0, 0, 0, 9]).length = ([0, 0, 0, 0, 9] : List Nat).length ∧
    (World.new.draw [0, 0, 0, 0, 9]).drop (4 * (([0, 0, 0, 0, 9] : List Nat).length / 4)) =
      ([0, 0, 0, 0, 9] : List Nat).drop (4 * (([0, 0, 0, 0, 9] : List Nat).length / 4)) ∧
    ((World.new.draw [0, 0, 0, 0, 9]).drop (4 * 0)).take 4 = World.new.colorAt (u32 0) ∧
    (World.new.colorAt (u32 0) = CELL_COLOR ∨ World.new.colorAt (u32 0) = VISITED_COLOR ∨
      World.new.colorAt (u32 0) = WALL_COLOR) :=
  maze_C10 World.new [0, 0, 0, 0, 9] 0 (by decide)
